import Mathlib

/-!
Verification of the sequential behaviour of `RingBuffer<T, N>` from
`src/lib.rs` of the `ring-buffer` crate.

The buffer keeps three `AtomicUsize` counters (`start`, `end`, `reserved`)
and a storage array `[UnsafeCell<MaybeUninit<T>>; N]`.  We model the
counters as unbounded naturals — the spec reads them as unbounded logical
positions, and counter wraparound at `usize::MAX` is explicitly out of
scope — and the storage as a list of `Option T` of length `N`, where
`none` marks a slot whose contents are uninitialised (never written, or
already moved out and thus not a defined value).

The model captures single-threaded executions: each call to `try_insert`
or `try_get` runs to completion without interference, so every
compare-and-swap succeeds on its first non-spurious attempt.  The
publication loop in `try_insert` spins until `end` equals the claimed
position; sequentially `end = reserved` holds in every state between
calls (proved below as part of `Inv`), so the loop terminates at once
with the effect `end := place + 1`.
-/

namespace RB

/-- Model of the `RingBuffer<T, N>` struct: three position counters and
the storage array, a slot being `none` when its contents are not a
fully initialised element. -/
structure RingBuffer (T : Type) (N : Nat) where
  start : Nat
  end_ : Nat
  reserved : Nat
  data : List (Option T)
deriving DecidableEq

variable {T : Type} {N : Nat}

/-- `RingBuffer::new`: all three counters zero, storage uninitialised. -/
def new (T : Type) (N : Nat) : RingBuffer T N :=
  { start := 0, end_ := 0, reserved := 0, data := List.replicate N none }

/-- Sequential semantics of `try_insert`.  The source reads `reserved`
and `start`; if `reserved == start + N` it returns `Err(v)` without
touching anything.  Otherwise the CAS on `reserved` claims
`place = reserved`, the value is written (volatile) at physical index
`place % N`, and the publication CAS advances `end` from `place` to
`place + 1` (sequentially `end = reserved = place`, so the spin loop
succeeds immediately). -/
def tryInsert (b : RingBuffer T N) (v : T) : Except T Unit × RingBuffer T N :=
  if b.reserved = b.start + N then
    (Except.error v, b)
  else
    (Except.ok (),
      { start := b.start
        end_ := b.reserved + 1
        reserved := b.reserved + 1
        data := b.data.set (b.reserved % N) (some v) })

/-- Sequential semantics of `try_get`.  The source reads `start` and
`end`; if equal it returns `None`.  Otherwise it volatile-reads the slot
at `start % N` and the CAS advances `start`, returning the read value.
A slot that is `none` models a read of uninitialised storage (the
`assume_init` in the source would be undefined behaviour there; we prove
this never happens in reachable states). -/
def tryGet (b : RingBuffer T N) : Option T × RingBuffer T N :=
  if b.start = b.end_ then
    (none, b)
  else
    (b.data.getD (b.start % N) none,
      { b with start := b.start + 1 })

/-- The logical contents of the buffer: the slots at the logical
positions in `[start, end)`, read through the physical indexing
`i % N`. -/
def contents (b : RingBuffer T N) : List (Option T) :=
  (List.range' b.start (b.end_ - b.start)).map fun i => b.data.getD (i % N) none

/-- The state invariant of sequential executions: the counters are
ordered, `end` and `reserved` coincide between calls, at most `N` slots
are outstanding, the storage has length `N`, and every slot in the
published range `[start, end)` holds an initialised element. -/
def Inv (b : RingBuffer T N) : Prop :=
  b.start ≤ b.end_ ∧ b.end_ = b.reserved ∧ b.reserved ≤ b.start + N ∧
  b.data.length = N ∧
  ∀ i, b.start ≤ i → i < b.end_ → (b.data.getD (i % N) none).isSome

/-- The states reachable from a fresh buffer by single-threaded calls to
`try_insert` and `try_get` — exactly the states a `RingBuffer` value can
be in, since `new` is the only constructor and these two methods the
only mutators. -/
inductive Reachable : RingBuffer T N → Prop
  | base : Reachable (new T N)
  | insert (v : T) {b : RingBuffer T N} : Reachable b → Reachable (tryInsert b v).2
  | get {b : RingBuffer T N} : Reachable b → Reachable (tryGet b).2

/-- One external call on the buffer. -/
inductive Op (T : Type) where
  | insert (v : T)
  | get

/-- The state after one call (discarding the call's result). -/
def step (b : RingBuffer T N) : Op T → RingBuffer T N
  | .insert v => (tryInsert b v).2
  | .get => (tryGet b).2

/-- The state after a sequence of calls. -/
def run (b : RingBuffer T N) (ops : List (Op T)) : RingBuffer T N :=
  ops.foldl step b

/-- Perform `try_insert` for each value in turn, collecting the results. -/
def insertAll (b : RingBuffer T N) : List T → List (Except T Unit) × RingBuffer T N
  | [] => ([], b)
  | v :: vs =>
    let p := tryInsert b v
    let q := insertAll p.2 vs
    (p.1 :: q.1, q.2)

/-- Perform `try_get` the given number of times, collecting the results. -/
def getAll (b : RingBuffer T N) : Nat → List (Option T) × RingBuffer T N
  | 0 => ([], b)
  | k + 1 =>
    let p := tryGet b
    let q := getAll p.2 k
    (p.1 :: q.1, q.2)

/-- The elements released when the buffer is destroyed.  The source
declares no `Drop` implementation for `RingBuffer`, and its storage is
`[UnsafeCell<MaybeUninit<T>>; N]` — `MaybeUninit<T>` never drops its
contents — so dropping the struct runs only the trivial destructors of
the `AtomicUsize` counters and releases no element of type `T`. -/
def droppedOnDestruction (_b : RingBuffer T N) : List T := []

/-! ### Helper lemmas on lists and modular indexing -/

theorem getD_set_self {α : Type _} (l : List α) (i : Nat) (a d : α)
    (h : i < l.length) : (l.set i a).getD i d = a := by
  rw [List.getD_eq_getElem?_getD, List.getElem?_set_self (by simpa using h)]
  rfl

theorem getD_set_ne {α : Type _} (l : List α) {i j : Nat} (a d : α)
    (h : i ≠ j) : (l.set i a).getD j d = l.getD j d := by
  rw [List.getD_eq_getElem?_getD, List.getElem?_set_ne h,
    ← List.getD_eq_getElem?_getD]

theorem getD_replicate_none {α : Type _} (n i : Nat) :
    (List.replicate n (none : Option α)).getD i none = none := by
  rw [List.getD_eq_getElem?_getD]
  rcases lt_or_le i n with h | h
  · rw [List.getElem?_eq_getElem (by simpa using h)]
    simp
  · rw [List.getElem?_eq_none (by simpa using h)]
    rfl

/-- Two distinct logical positions less than a buffer-width apart map to
distinct physical indices. -/
theorem mod_ne_of_between {i e s N : Nat} (hsi : s ≤ i) (hie : i < e)
    (heN : e < s + N) : i % N ≠ e % N := by
  intro h
  have hN : 0 < N := by omega
  have hmod : i ≡ e [MOD N] := h
  have hdvd : N ∣ e - i := (Nat.modEq_iff_dvd' (Nat.le_of_lt hie)).1 hmod
  have hle : N ≤ e - i := Nat.le_of_dvd (by omega) hdvd
  omega

/-! ### Unfolding lemmas for the two operations -/

theorem tryInsert_full {b : RingBuffer T N} (v : T)
    (hfull : b.reserved = b.start + N) :
    tryInsert b v = (Except.error v, b) := by
  simp [tryInsert, hfull]

theorem tryInsert_open {b : RingBuffer T N} (v : T)
    (h : b.reserved ≠ b.start + N) :
    tryInsert b v = (Except.ok (),
      { start := b.start, end_ := b.reserved + 1, reserved := b.reserved + 1,
        data := b.data.set (b.reserved % N) (some v) }) := by
  simp [tryInsert, h]

theorem tryGet_empty {b : RingBuffer T N} (h : b.start = b.end_) :
    tryGet b = (none, b) := by
  simp [tryGet, h]

theorem tryGet_nonempty {b : RingBuffer T N} (h : b.start ≠ b.end_) :
    tryGet b = (b.data.getD (b.start % N) none,
      { b with start := b.start + 1 }) := by
  simp [tryGet, h]

/-! ### The invariant is preserved by every operation -/

theorem inv_new : Inv (new T N) := by
  refine ⟨Nat.le_refl _, rfl, by simp [new], by simp [new], ?_⟩
  intro i h1 h2
  simp [new] at h2

theorem inv_tryInsert (b : RingBuffer T N) (v : T) (hb : Inv b) :
    Inv (tryInsert b v).2 := by
  obtain ⟨h1, h2, h3, h4, h5⟩ := hb
  by_cases hfull : b.reserved = b.start + N
  · rw [tryInsert_full v hfull]
    exact ⟨h1, h2, h3, h4, h5⟩
  · have hlt : b.reserved < b.start + N := lt_of_le_of_ne h3 hfull
    have hN : 0 < N := by omega
    rw [tryInsert_open v hfull]
    refine ⟨?_, rfl, ?_, ?_, ?_⟩
    · dsimp only; omega
    · dsimp only; omega
    · dsimp only; rw [List.length_set]; exact h4
    · intro i hi1 hi2
      dsimp only at hi1 hi2 ⊢
      rcases Nat.lt_or_ge i b.end_ with hcase | hcase
      · rw [getD_set_ne _ _ _ ?_]
        · exact h5 i hi1 hcase
        · exact fun hh => mod_ne_of_between hi1 (h2 ▸ hcase) (h2 ▸ hlt) hh.symm
      · have : i = b.reserved := by omega
        subst this
        rw [getD_set_self _ _ _ _ (by rw [h4]; exact Nat.mod_lt _ hN)]
        rfl

theorem inv_tryGet (b : RingBuffer T N) (hb : Inv b) :
    Inv (tryGet b).2 := by
  obtain ⟨h1, h2, h3, h4, h5⟩ := hb
  by_cases hempty : b.start = b.end_
  · rw [tryGet_empty hempty]
    exact ⟨h1, h2, h3, h4, h5⟩
  · have hlt : b.start < b.end_ := lt_of_le_of_ne h1 hempty
    rw [tryGet_nonempty hempty]
    refine ⟨?_, h2, ?_, h4, ?_⟩
    · dsimp only; omega
    · dsimp only; omega
    · intro i hi1 hi2
      dsimp only at hi1 hi2 ⊢
      exact h5 i (by omega) hi2

/-- Every reachable state satisfies the invariant. -/
theorem reachable_inv {b : RingBuffer T N} (hb : Reachable b) : Inv b := by
  induction hb with
  | base => exact inv_new
  | insert v _ ih => exact inv_tryInsert _ v ih
  | get _ ih => exact inv_tryGet _ ih

/-! ### How `contents` evolves under the two operations -/

theorem contents_new : contents (new T N) = [] := by
  simp [contents, new]

theorem length_contents (b : RingBuffer T N) :
    (contents b).length = b.end_ - b.start := by
  simp [contents]

theorem contents_tryInsert (b : RingBuffer T N) (v : T) (hb : Inv b)
    (h : b.reserved ≠ b.start + N) :
    contents (tryInsert b v).2 = contents b ++ [some v] := by
  obtain ⟨h1, h2, h3, h4, h5⟩ := hb
  have hlt : b.reserved < b.start + N := lt_of_le_of_ne h3 h
  have hN : 0 < N := by omega
  rw [tryInsert_open v h]
  unfold contents
  dsimp only
  have hn : b.reserved + 1 - b.start = (b.end_ - b.start) + 1 := by omega
  have hconcat : List.range' b.start ((b.end_ - b.start) + 1) =
      List.range' b.start (b.end_ - b.start) ++ [b.start + (b.end_ - b.start)] := by
    exact List.range'_1_concat b.start (b.end_ - b.start)
  have hend : b.start + (b.end_ - b.start) = b.end_ := by omega
  rw [hn, hconcat, hend, List.map_append]
  congr 1
  · apply List.map_congr_left
    intro i hi
    rw [List.mem_range'_1] at hi
    apply getD_set_ne
    intro hh
    exact mod_ne_of_between hi.1 (by omega) (by omega) hh.symm
  · rw [List.map_cons, List.map_nil, ← h2,
      getD_set_self _ _ _ _ (by rw [h4]; exact Nat.mod_lt _ hN)]

theorem contents_tryGet (b : RingBuffer T N) (hb : Inv b)
    (h : b.start ≠ b.end_) :
    contents b = b.data.getD (b.start % N) none :: contents (tryGet b).2 := by
  obtain ⟨h1, _, _, _, _⟩ := hb
  have hlt : b.start < b.end_ := lt_of_le_of_ne h1 h
  rw [tryGet_nonempty h]
  unfold contents
  dsimp only
  have hn : b.end_ - b.start = (b.end_ - (b.start + 1)) + 1 := by omega
  rw [hn, List.range'_succ b.start (b.end_ - (b.start + 1)) 1, List.map_cons]

theorem reachable_run (b : RingBuffer T N) (hb : Reachable b)
    (ops : List (Op T)) : Reachable (run b ops) := by
  induction ops generalizing b with
  | nil => exact hb
  | cons op ops ih =>
    have hstep : Reachable (step b op) := by
      cases op with
      | insert v => exact Reachable.insert v hb
      | get => exact Reachable.get hb
    simpa [run, List.foldl_cons] using ih _ hstep

/-! ### Behaviour of operation sequences -/

theorem insertAll_spec (vs : List T) :
    ∀ b : RingBuffer T N, Inv b → (b.end_ - b.start) + vs.length ≤ N →
    (insertAll b vs).1 = vs.map (fun _ => Except.ok ()) ∧
    contents (insertAll b vs).2 = contents b ++ vs.map some ∧
    Inv (insertAll b vs).2 ∧
    (insertAll b vs).2.start = b.start ∧
    (insertAll b vs).2.end_ = b.end_ + vs.length := by
  induction vs with
  | nil =>
    intro b hb _
    exact ⟨rfl, by simp [insertAll], hb, rfl, rfl⟩
  | cons v vs ih =>
    intro b hb hlen
    have h1 := hb.1
    have h2 := hb.2.1
    have hnf : b.reserved ≠ b.start + N := by
      simp only [List.length_cons] at hlen
      omega
    have hok : (tryInsert b v).1 = Except.ok () := by
      rw [tryInsert_open v hnf]
    have hstart : (tryInsert b v).2.start = b.start := by
      rw [tryInsert_open v hnf]
    have hend : (tryInsert b v).2.end_ = b.end_ + 1 := by
      rw [tryInsert_open v hnf]
      dsimp only
      omega
    have hinv1 : Inv (tryInsert b v).2 := inv_tryInsert b v hb
    have hcontents : contents (tryInsert b v).2 = contents b ++ [some v] :=
      contents_tryInsert b v hb hnf
    have hlen1 : ((tryInsert b v).2.end_ - (tryInsert b v).2.start) + vs.length ≤ N := by
      rw [hstart, hend]
      simp only [List.length_cons] at hlen
      omega
    obtain ⟨ih1, ih2, ih3, ih4, ih5⟩ := ih (tryInsert b v).2 hinv1 hlen1
    refine ⟨?_, ?_, ih3, ?_, ?_⟩
    · simp only [insertAll, List.map_cons]
      rw [hok, ih1]
    · simp only [insertAll]
      rw [ih2, hcontents, List.map_cons, List.append_assoc, List.singleton_append]
    · simp only [insertAll]
      rw [ih4, hstart]
    · simp only [insertAll, List.length_cons]
      rw [ih5, hend]
      omega

theorem getAll_spec (k : Nat) :
    ∀ b : RingBuffer T N, Inv b → k ≤ b.end_ - b.start →
    (getAll b k).1 = (contents b).take k ∧
    contents (getAll b k).2 = (contents b).drop k ∧
    Inv (getAll b k).2 ∧
    (getAll b k).2.start = b.start + k ∧
    (getAll b k).2.end_ = b.end_ := by
  induction k with
  | zero =>
    intro b hb _
    exact ⟨by simp [getAll], by simp [getAll], hb, rfl, rfl⟩
  | succ k ih =>
    intro b hb hk
    have h1 := hb.1
    have hne : b.start ≠ b.end_ := by omega
    have hcons := contents_tryGet b hb hne
    have hval : (tryGet b).1 = b.data.getD (b.start % N) none := by
      rw [tryGet_nonempty hne]
    have hstart : (tryGet b).2.start = b.start + 1 := by
      rw [tryGet_nonempty hne]
    have hend : (tryGet b).2.end_ = b.end_ := by
      rw [tryGet_nonempty hne]
    have hinv1 : Inv (tryGet b).2 := inv_tryGet b hb
    have hk1 : k ≤ (tryGet b).2.end_ - (tryGet b).2.start := by
      rw [hstart, hend]
      omega
    obtain ⟨ih1, ih2, ih3, ih4, ih5⟩ := ih (tryGet b).2 hinv1 hk1
    refine ⟨?_, ?_, ih3, ?_, ?_⟩
    · simp only [getAll]
      rw [hval, ih1, hcons, List.take_succ_cons]
    · simp only [getAll]
      rw [ih2, hcons, List.drop_succ_cons]
    · simp only [getAll]
      rw [ih4, hstart]
      omega
    · simp only [getAll]
      rw [ih5, hend]

/-! ### The claims -/

/-- C1: for every sequence of at most `N` single-threaded `try_insert`
calls on a freshly constructed `RingBuffer<T, N>`, a subsequent sequence
of `try_get` calls returns exactly those elements, in insertion order
(FIFO). -/
theorem c1_fifo_order (T : Type) (N : Nat) (vs : List T)
    (h : vs.length ≤ N) :
    (getAll (insertAll (new T N) vs).2 vs.length).1 = vs.map some := by
  obtain ⟨_, hc, hinv, hs, he⟩ :=
    insertAll_spec vs (new T N) inv_new (by simpa [new] using h)
  have hk : vs.length ≤
      (insertAll (new T N) vs).2.end_ - (insertAll (new T N) vs).2.start := by
    rw [hs, he]
    simp [new]
  obtain ⟨hg, _, _, _, _⟩ := getAll_spec vs.length _ hinv hk
  rw [hg, hc, contents_new, List.nil_append,
    List.take_of_length_le (by simp)]

theorem c1_fifo_order_witness :
    ([10, 20, 30] : List Nat).length ≤ 4 ∧
    (getAll (insertAll (new Nat 4) [10, 20, 30]).2
        ([10, 20, 30] : List Nat).length).1 = [10, 20, 30].map some :=
  ⟨by decide, c1_fifo_order Nat 4 [10, 20, 30] (by decide)⟩

/-- C2: on a fresh buffer of capacity `N`, each of the first `N`
`try_insert` calls succeeds; on that now-full buffer, and more generally
on any buffer with `reserved = start + N`, a further `try_insert` fails,
returns the offered value unchanged, and leaves the whole state (hence
the counters and logical contents) untouched. -/
theorem c2_capacity_boundary (T : Type) (N : Nat) (vs : List T)
    (hlen : vs.length = N) (w v : T) (b : RingBuffer T N)
    (hfull : b.reserved = b.start + N) :
    (insertAll (new T N) vs).1 = vs.map (fun _ => Except.ok ()) ∧
    tryInsert (insertAll (new T N) vs).2 w =
      (Except.error w, (insertAll (new T N) vs).2) ∧
    tryInsert b v = (Except.error v, b) := by
  obtain ⟨hr, _, hinv, hs, he⟩ :=
    insertAll_spec vs (new T N) inv_new (by simp [new, hlen])
  refine ⟨hr, ?_, tryInsert_full v hfull⟩
  apply tryInsert_full
  rw [← hinv.2.1, hs, he]
  simp [new, hlen]

theorem c2_capacity_boundary_witness :
    ([7, 8] : List Nat).length = 2 ∧
    (insertAll (new Nat 2) [7, 8]).2.reserved =
      (insertAll (new Nat 2) [7, 8]).2.start + 2 ∧
    ((insertAll (new Nat 2) [7, 8]).1 = [7, 8].map (fun _ => Except.ok ()) ∧
      tryInsert (insertAll (new Nat 2) [7, 8]).2 9 =
        (Except.error 9, (insertAll (new Nat 2) [7, 8]).2) ∧
      tryInsert (insertAll (new Nat 2) [7, 8]).2 11 =
        (Except.error 11, (insertAll (new Nat 2) [7, 8]).2)) :=
  ⟨rfl, by decide,
    c2_capacity_boundary Nat 2 [7, 8] rfl 9 11 (insertAll (new Nat 2) [7, 8]).2
      (by decide)⟩

/-- C3: starting from the all-zero initial state, every sequence of
`try_insert` and `try_get` calls preserves `start ≤ end ≤ reserved` (as
unbounded counters) and `reserved − start ≤ N`. -/
theorem c3_counter_invariant (T : Type) (N : Nat) (ops : List (Op T)) :
    (run (new T N) ops).start ≤ (run (new T N) ops).end_ ∧
    (run (new T N) ops).end_ ≤ (run (new T N) ops).reserved ∧
    (run (new T N) ops).reserved - (run (new T N) ops).start ≤ N := by
  obtain ⟨h1, h2, h3, _, _⟩ :=
    reachable_inv (reachable_run (new T N) Reachable.base ops)
  exact ⟨h1, le_of_eq h2, by omega⟩

/-- C4: alternating insert/remove cycles that wrap around the physical
array preserve FIFO order: with capacity 4, inserting 1, 2, 3, removing
three elements (yielding 1, 2, 3), then inserting 4 and 5 and removing
two elements yields exactly 4 then 5. -/
theorem c4_wraparound_fifo :
    (insertAll (new Nat 4) [1, 2, 3]).1 =
      [Except.ok (), Except.ok (), Except.ok ()] ∧
    (getAll (insertAll (new Nat 4) [1, 2, 3]).2 3).1 =
      [some 1, some 2, some 3] ∧
    (insertAll (getAll (insertAll (new Nat 4) [1, 2, 3]).2 3).2 [4, 5]).1 =
      [Except.ok (), Except.ok ()] ∧
    (getAll
        (insertAll (getAll (insertAll (new Nat 4) [1, 2, 3]).2 3).2 [4, 5]).2
        2).1 =
      [some 4, some 5] :=
  ⟨rfl, rfl, rfl, rfl⟩

/-- C5: after a successful `try_get` on a full buffer
(`reserved = start + N`), exactly one further `try_insert` succeeds: the
first insertion after the removal returns `Ok`, and a second insertion
with no intervening removal fails, returning the offered value. -/
theorem c5_one_slot_after_get (T : Type) (N : Nat) (v w : T)
    (b : RingBuffer T N) (hr : Reachable b)
    (hfull : b.reserved = b.start + N) (hN : 0 < N) :
    ((tryGet b).1).isSome ∧
    (tryInsert (tryGet b).2 v).1 = Except.ok () ∧
    (tryInsert (tryInsert (tryGet b).2 v).2 w).1 = Except.error w := by
  obtain ⟨h1, h2, h3, h4, h5⟩ := reachable_inv hr
  have hne : b.start ≠ b.end_ := by omega
  have hb1 : (tryGet b).2 = { b with start := b.start + 1 } := by
    rw [tryGet_nonempty hne]
  have hnf : ({ b with start := b.start + 1 } : RingBuffer T N).reserved ≠
      ({ b with start := b.start + 1 } : RingBuffer T N).start + N := by
    dsimp only
    omega
  refine ⟨?_, ?_, ?_⟩
  · rw [tryGet_nonempty hne]
    exact h5 b.start (Nat.le_refl _) (by omega)
  · rw [hb1, tryInsert_open v hnf]
  · rw [hb1, tryInsert_open v hnf]
    dsimp only
    rw [tryInsert_full w (by dsimp only; omega)]

theorem c5_one_slot_after_get_witness :
    (tryInsert (new Nat 1) 42).2.reserved =
      (tryInsert (new Nat 1) 42).2.start + 1 ∧
    0 < 1 ∧
    (((tryGet (tryInsert (new Nat 1) 42).2).1).isSome ∧
      (tryInsert (tryGet (tryInsert (new Nat 1) 42).2).2 5).1 =
        Except.ok () ∧
      (tryInsert (tryInsert (tryGet (tryInsert (new Nat 1) 42).2).2 5).2 6).1 =
        Except.error 6) :=
  ⟨by decide, by decide,
    c5_one_slot_after_get Nat 1 5 6 (tryInsert (new Nat 1) 42).2
      (Reachable.insert 42 Reachable.base) (by decide) (by decide)⟩

/-- C6: for any value `v` and a fresh buffer of positive capacity,
`try_insert v` succeeds, an immediate `try_get` returns `Some v`, and
the buffer is empty afterwards (a further `try_get` returns `None`). -/
theorem c6_roundtrip (T : Type) (N : Nat) (v : T) (hN : 0 < N) :
    (tryInsert (new T N) v).1 = Except.ok () ∧
    (tryGet (tryInsert (new T N) v).2).1 = some v ∧
    (tryGet (tryGet (tryInsert (new T N) v).2).2).1 = none := by
  have hnf : (new T N).reserved ≠ (new T N).start + N := by
    simp only [new]
    omega
  have hb1 : Inv (tryInsert (new T N) v).2 := inv_tryInsert _ v inv_new
  have hcont : contents (tryInsert (new T N) v).2 = [some v] := by
    rw [contents_tryInsert (new T N) v inv_new hnf, contents_new,
      List.nil_append]
  have hstart : (tryInsert (new T N) v).2.start = 0 := by
    rw [tryInsert_open v hnf]
    simp [new]
  have hend : (tryInsert (new T N) v).2.end_ = 1 := by
    rw [tryInsert_open v hnf]
    simp [new]
  have hne : (tryInsert (new T N) v).2.start ≠ (tryInsert (new T N) v).2.end_ := by
    rw [hstart, hend]
    omega
  have hcons := contents_tryGet _ hb1 hne
  rw [hcont] at hcons
  refine ⟨?_, ?_, ?_⟩
  · rw [tryInsert_open v hnf]
  · rw [tryGet_nonempty hne]
    injection hcons with hx _
    exact hx.symm
  · have hempty : (tryGet (tryInsert (new T N) v).2).2.start =
        (tryGet (tryInsert (new T N) v).2).2.end_ := by
      rw [tryGet_nonempty hne]
      dsimp only
      rw [hstart, hend]
    rw [tryGet_empty hempty]

theorem c6_roundtrip_witness :
    0 < 3 ∧
    ((tryInsert (new Nat 3) 5).1 = Except.ok () ∧
      (tryGet (tryInsert (new Nat 3) 5).2).1 = some 5 ∧
      (tryGet (tryGet (tryInsert (new Nat 3) 5).2).2).1 = none) :=
  ⟨by decide, c6_roundtrip Nat 3 5 (by decide)⟩

/-- C7: in every reachable state, `try_get` returns `None` exactly when
the buffer is empty (`start = end`), leaves the state untouched in that
case, and returns `Some` element whenever `start ≠ end`. -/
theorem c7_get_none_iff_empty (T : Type) (N : Nat) (b : RingBuffer T N)
    (hr : Reachable b) :
    ((tryGet b).1 = none ↔ b.start = b.end_) ∧
    (b.start = b.end_ → tryGet b = (none, b)) ∧
    (b.start ≠ b.end_ → ∃ x, (tryGet b).1 = some x) := by
  obtain ⟨h1, _, _, _, h5⟩ := reachable_inv hr
  have hsome : b.start ≠ b.end_ → ∃ x, (tryGet b).1 = some x := by
    intro hne
    have hs := h5 b.start (Nat.le_refl _) (lt_of_le_of_ne h1 hne)
    rw [tryGet_nonempty hne]
    exact Option.isSome_iff_exists.mp hs
  refine ⟨⟨?_, ?_⟩, tryGet_empty, hsome⟩
  · intro hnone
    by_contra hne
    obtain ⟨x, hx⟩ := hsome hne
    rw [hnone] at hx
    exact Option.noConfusion hx
  · intro h
    rw [tryGet_empty h]

theorem c7_get_none_iff_empty_witness :
    (((tryGet (tryInsert (new Nat 2) 4).2).1 = none ↔
        (tryInsert (new Nat 2) 4).2.start = (tryInsert (new Nat 2) 4).2.end_) ∧
      ((tryInsert (new Nat 2) 4).2.start = (tryInsert (new Nat 2) 4).2.end_ →
        tryGet (tryInsert (new Nat 2) 4).2 =
          (none, (tryInsert (new Nat 2) 4).2)) ∧
      ((tryInsert (new Nat 2) 4).2.start ≠ (tryInsert (new Nat 2) 4).2.end_ →
        ∃ x, (tryGet (tryInsert (new Nat 2) 4).2).1 = some x)) :=
  c7_get_none_iff_empty Nat 2 (tryInsert (new Nat 2) 4).2
    (Reachable.insert 4 Reachable.base)

/-- C8: in every reachable state in which `try_get` observes
`start ≠ end`, the slot at physical index `start % N` holds a fully
initialised element, so the volatile read and `assume_init` in `try_get`
never touch uninitialised storage. -/
theorem c8_read_slot_initialized (T : Type) (N : Nat)
    (b : RingBuffer T N) (hr : Reachable b) (h : b.start ≠ b.end_) :
    (b.data.getD (b.start % N) none).isSome := by
  obtain ⟨h1, _, _, _, h5⟩ := reachable_inv hr
  exact h5 b.start (Nat.le_refl _) (lt_of_le_of_ne h1 h)

theorem c8_read_slot_initialized_witness :
    (tryInsert (new Nat 2) 4).2.start ≠ (tryInsert (new Nat 2) 4).2.end_ ∧
    ((tryInsert (new Nat 2) 4).2.data.getD
        ((tryInsert (new Nat 2) 4).2.start % 2) none).isSome :=
  ⟨by decide,
    c8_read_slot_initialized Nat 2 (tryInsert (new Nat 2) 4).2
      (Reachable.insert 4 Reachable.base) (by decide)⟩

/-- C9 (divergence): the source declares no `Drop` implementation for
`RingBuffer` and its storage is `MaybeUninit`, which never drops its
contents, so destroying the buffer releases no element even while an
element is still logically held in `[start, end)` — the still-queued
element is leaked, against the spec's requirement that it be dropped. -/
theorem c9_destruction_drops_nothing :
    droppedOnDestruction (tryInsert (new Nat 4) 7).2 = [] ∧
    contents (tryInsert (new Nat 4) 7).2 = [some 7] :=
  ⟨rfl, rfl⟩

end RB
